import Mathlib

/-!
Shallow embedding of the `filelineindex` repository (Python) in Lean 4,
together with proofs settling the frozen claims C1-C10 about its
natural-language specification.

Conventions of the embedding:
* Python strings are Lean `String`s; Python string comparison
  (lexicographic on code points, which agrees with byte-lexicographic
  order on the UTF-8 encodings) is embedded explicitly as `pyLt` /
  `pyLe` on the character lists, so that every comparison evaluates by
  kernel reduction.
* Machine-level file contents are modelled as an association list from
  path to content (`FS`).  Reading a missing file is an explicit error.
* Python exceptions are the `PyErr` type; fallible code returns `Except`
  or pairs a result state with an `Option PyErr`.
* Loops are embedded as structurally recursive functions on an explicit
  fuel argument whose initial value makes the recursion exact (for the
  packer the fuel is exactly the number of remaining `for` iterations;
  for the binary search and the merge the fuel strictly dominates the
  loop measure, so the fuel-exhausted branch is unreachable from the
  public entry points).
-/

/-! ## Python string order -/

/-- The code point of a character, the unit of Python string comparison. -/
def charCode (c : Char) : Nat := c.val.toNat

/-- Python's `<` on strings, on the underlying character lists:
lexicographic by code point, a strict prefix is smaller. -/
def listLtB : List Char → List Char → Bool
  | [], [] => false
  | [], _ :: _ => true
  | _ :: _, [] => false
  | a :: as, b :: bs =>
      if charCode a < charCode b then true
      else if charCode b < charCode a then false
      else listLtB as bs

/-- Python's `s < t` on strings. -/
def pyLt (a b : String) : Bool := listLtB a.data b.data

/-- Python's `s <= t` on strings (equivalently `not (t < s)`). -/
def pyLe (a b : String) : Bool := ! pyLt b a

/-- The strict string order as a relation, for stating sortedness. -/
def lineLt (a b : String) : Prop := pyLt a b = true

/-- The non-strict string order as a relation. -/
def lineLe (a b : String) : Prop := pyLt b a = false

instance : DecidableRel lineLt :=
  fun a b => inferInstanceAs (Decidable (pyLt a b = true))

instance : DecidableRel lineLe :=
  fun a b => inferInstanceAs (Decidable (pyLt b a = false))

/-- Python exception kinds that the embedded code can raise. -/
inductive PyErr where
  | valueError
  | typeError
  | indexError
  | fileNotFound
  | runtimeError
deriving DecidableEq, Repr

/-- A Python value passed to `filetools.write`: either a string or a list of
strings (the source annotates the first parameter `Union[str, Iterable[str]]`
and, through its call sites, lists also reach the `path` position). -/
inductive PyVal where
  | str (s : String)
  | strList (l : List String)
deriving DecidableEq, Repr

/-- The filesystem: an association list from file path to file content. -/
abbrev FS := List (String × String)

/-- Content of the file at `p`, if it exists. -/
def lookupFS (fs : FS) (p : String) : Option String :=
  (fs.find? (fun e => e.1 == p)).map (fun e => e.2)

/-- Create or overwrite the file at `p` with `content`. -/
def setFS (fs : FS) (p : String) (content : String) : FS :=
  if (fs.find? (fun e => e.1 == p)).isSome then
    fs.map (fun e => if e.1 == p then (p, content) else e)
  else
    fs ++ [(p, content)]

/-- `filetools.join_paths` for the two-argument uses in the indexer
(`os.path.join` on POSIX with relative names). -/
def joinPaths (a b : String) : String := a ++ "/" ++ b

/-- `filetools.write(lines, path, append)` — note the parameter order of the
source: `lines` first, `path` second.  `open` accepts only a string path, so a
list in the `path` position raises `TypeError`; `writelines` concatenates. -/
def pyWrite (fs : FS) (lines : PyVal) (path : PyVal) (append : Bool) :
    Except PyErr FS :=
  match path with
  | PyVal.strList _ => Except.error PyErr.typeError
  | PyVal.str p =>
      let text := match lines with
        | PyVal.str s => s
        | PyVal.strList l => String.join l
      let old := if append then (lookupFS fs p).getD "" else ""
      Except.ok (setFS fs p (old ++ text))

/-- Whether the first character list is a prefix of the second. -/
def listStartsWith : List Char → List Char → Bool
  | [], _ => true
  | _ :: _, [] => false
  | a :: as, b :: bs => a == b && listStartsWith as bs

/-- Whether `p` is a prefix of `s`. -/
def strPrefixOf (p s : String) : Bool := listStartsWith p.data s.data

/-- `filetools.make_empty_dir`: create the directory and remove everything
inside it.  In the path model, all files whose path lies under `dir ++ "/"`
disappear. -/
def makeEmptyDir (fs : FS) (dir : String) : FS :=
  fs.filter (fun e => ¬ strPrefixOf (dir ++ "/") e.1 = true)

/-- `filetools.size_of_line`: byte length of the UTF-8 encoding. -/
def sizeOfLine (l : String) : Nat := l.utf8ByteSize

/-! ## `core/algorithm.py` — binary search primitives -/

/-- The shared binary-search loop of `bs_has`, `bs_lower_index` and
`bs_upper_index`:
`while left < right: mid = (left + right + 1) // 2; ...`.
Fuel-structural; the callers pass `A.length` as fuel, which bounds the
iteration count, so the fuel-exhausted branch is unreachable. -/
def bsLoop (item : String) (A : List String) : Nat → Nat → Nat → Nat
  | 0, l, _ => l
  | fuel + 1, l, r =>
      if l < r then
        let mid := (l + r + 1) / 2
        if pyLt item (A.getD mid "") then bsLoop item A fuel l (mid - 1)
        else bsLoop item A fuel mid r
      else l

/-- `algorithm.bs_has`. -/
def bs_has (item : String) (sorted_items : List String) : Bool :=
  if sorted_items.length == 0 || pyLt item (sorted_items.getD 0 "")
      || pyLt (sorted_items.getD (sorted_items.length - 1) "") item then
    false
  else
    sorted_items.getD
      (bsLoop item sorted_items sorted_items.length 0 (sorted_items.length - 1)) ""
      == item

/-- `algorithm.bs_lower_index`: index of the greatest element not greater
than `item`, `none` if the list is empty or all items are greater. -/
def bs_lower_index (item : String) (sorted_items : List String) : Option Nat :=
  if sorted_items.length == 0 || pyLt item (sorted_items.getD 0 "") then
    none
  else
    some (bsLoop item sorted_items sorted_items.length 0 (sorted_items.length - 1))

/-- `algorithm.bs_upper_index`.  In the source its body is a verbatim copy of
`bs_lower_index` (same guard, same loop, same return), despite the docstring
announcing the smallest element not smaller than `item`. -/
def bs_upper_index (item : String) (sorted_items : List String) : Option Nat :=
  if sorted_items.length == 0 || pyLt item (sorted_items.getD 0 "") then
    none
  else
    some (bsLoop item sorted_items sorted_items.length 0 (sorted_items.length - 1))

/-! ## `core/batched_index.py` — the lookup engine -/

/-- `BatchKeyData`: the last line of the indexed set plus the first line of
each batch. -/
structure BatchKeyData where
  last_line : String
  batch_start_lines : List String
deriving DecidableEq, Repr

/-- `LineBatchedIndex.has`, with the batched storage modelled by the list of
batch contents (each batch is the list of its lines, as `FileLineBatch.has`
reads them).  `batch_start_lines[0]` is modelled with default `""` (Python
would raise on an empty separator list; a built index is never empty) and an
out-of-range batch number yields the empty batch (Python would raise; in a
well-formed index the storage has one batch per separator). -/
def hasLine (data : BatchKeyData) (storage : List (List String)) (line : String) :
    Bool :=
  let line := line ++ "\n"
  if pyLt line (data.batch_start_lines.getD 0 "") || pyLt data.last_line line then
    false
  else
    match bs_lower_index line data.batch_start_lines with
    | none => false
    | some batchNumber => bs_has line (storage.getD batchNumber [])

/-- A valid stored line: ends with `'\n'` and contains no interior newline
(spec §3, "Line"). -/
def validLine (s : String) : Bool :=
  decide (s.data ≠ [] ∧ s.data.getLast? = some '\n' ∧ '\n' ∉ s.data.dropLast)

/-! ## `core/filetools.py` — batch file numbering -/

/-- The loop of `convert_file_number` computing the digit width:
`while group_size > 0: number_width += 1; group_size //= 16`.
Fuel-structural; the caller passes the start value as fuel, which bounds the
iteration count. -/
def widthLoopAux : Nat → Nat → Nat
  | 0, _ => 0
  | fuel + 1, g => if g = 0 then 0 else 1 + widthLoopAux fuel (g / 16)

/-- An uppercase hexadecimal digit, as produced by `hex(...)[2:].upper()`. -/
def hexDigitCharU (d : Nat) : Char :=
  if d < 10 then Char.ofNat (48 + d) else Char.ofNat (55 + d)

/-- The digits of `hex(n)[2:]` in little-endian order (fuel-structural). -/
def hexRevAux : Nat → Nat → List Char
  | 0, _ => []
  | fuel + 1, n => if n = 0 then [] else hexDigitCharU (n % 16) :: hexRevAux fuel (n / 16)

/-- Python `hex(n)[2:].upper()` for `n ≥ 0`. -/
def toHexUpper (n : Nat) : String :=
  if n = 0 then "0" else String.mk (hexRevAux n n).reverse

/-- Python `str.rjust(width, fill)`. -/
def rjust (s : String) (width : Nat) (fill : Char) : String :=
  if width ≤ s.length then s
  else String.mk (List.replicate (width - s.length) fill) ++ s

/-- `filetools.convert_file_number(number, group_size)`: the file indexing
number as a fixed-width uppercase hexadecimal string, the width computed from
`group_size - 1`. -/
def convertFileNumber (number : Nat) (groupSize : Nat) : String :=
  rjust (toHexUpper number) (widthLoopAux (groupSize - 1) (groupSize - 1)) '0'

/-- Spec-side uppercase hexadecimal encoding of a number, phrased through
`Nat.digits`. -/
def specHexStr (n : Nat) : String :=
  if n = 0 then "0"
  else String.mk (((Nat.digits 16 n).map hexDigitCharU).reverse)

/-- Spec-side batch file name: the zero-padded uppercase hexadecimal encoding
of the batch number, whose fixed width is the number of base-16 digits of
`N - 1` for the planned batch count `N`, followed by `.dat`. -/
def specBatchFileName (n N : Nat) : String :=
  rjust (specHexStr n) ((Nat.digits 16 (N - 1)).length) '0' ++ ".dat"

/-! ## `indexer.py` — options, batch packing, `index_lines` -/

/-- `IndexerOptions.__raise_if_is_not_valid`: whether constructing
`IndexerOptions(min_file_count, max_file_count, wanted_file_count)` raises a
`ValueError`.  `FILE_COUNT_LIMITS = (1, 1_000_000_000)`; each provided count is
range-checked, then `max < min` is rejected, then a provided wanted count
outside `[min, max]` is rejected. -/
def optionsRaise (minCount maxCount : Int) (wantedCount : Option Int) : Bool :=
  (wantedCount.elim false (fun c => c < 1 || 1000000000 < c))
    || (minCount < 1 || 1000000000 < minCount)
    || (maxCount < 1 || 1000000000 < maxCount)
    || maxCount < minCount
    || (wantedCount.elim false (fun w => w < minCount || maxCount < w))

/-- `Indexer.__find_optimal_file_number` (validated options assumed, so the
Python `or` fallback of a `None` wanted count is `Option.getD`). -/
def findOptimalFileNumber (minCount maxCount : Nat) (wantedCount : Option Nat)
    (lineCount : Nat) : Nat :=
  let fileNumber := 1000
  let fileNumber := wantedCount.getD fileNumber
  let fileNumber := max fileNumber minCount
  min (min fileNumber lineCount) maxCount

/-- State of the inner `while True` loop of `Indexer.__index` over one batch
file: the lines written to the file so far, `last_line`, `processed_size`,
the not-yet-fetched rest of the stream, and whether `StopIteration` fired. -/
structure InnerState where
  batch : List String
  lastLine : String
  processed : Nat
  rest : List String
  stopped : Bool
deriving DecidableEq, Repr

/-- The inner loop of `Indexer.__index`: fetch a line, add its size, stop the
batch once `processed_size > current_limit` (the triggering line is carried
into the next batch as `last_line`), or report `StopIteration` when the
stream ends. -/
def packInner (limit : Nat) (processed : Nat) (lastLine : String)
    (batch : List String) : List String → InnerState
  | [] => ⟨batch, lastLine, processed, [], true⟩
  | l :: rest =>
      if limit < processed + sizeOfLine l then
        ⟨batch, l, processed + sizeOfLine l, rest, false⟩
      else
        packInner limit (processed + sizeOfLine l) l (batch ++ [l]) rest

/-- Result of the packing loop of `Indexer.__index`: the contents of the
created batch files, the collected `start_lines`, and the final `last_line`. -/
structure PackResult where
  batches : List (List String)
  startLines : List String
  lastLine : String
deriving DecidableEq, Repr

/-- The `for file_number in range(optimal_file_number)` loop of
`Indexer.__index`.  The fuel is exactly the number of remaining iterations
(initially `N`), so fuel `0` is the loop running to completion, which the
source guards with `RuntimeError("An unexpected algorithm branch.")`.
At `file_number ≠ 0` the current `last_line` is appended to `start_lines` and
written first into the new batch file; at `file_number = 0` the initial
`last_line` is `""`, whose write adds nothing to the file. -/
def packLoop (total N : Nat) : Nat → Nat → Nat → String → List String →
    List (List String) → List String → Except PyErr PackResult
  | 0, _, _, _, _, _, _ => Except.error PyErr.runtimeError
  | fuel + 1, fn, processed, lastLine, startLines, batches, rest =>
      let limit := total * (fn + 1) / N
      let startLines2 := if fn = 0 then startLines else startLines ++ [lastLine]
      let batch0 : List String := if fn = 0 then [] else [lastLine]
      let s := packInner limit processed lastLine batch0 rest
      if s.stopped then
        Except.ok ⟨batches ++ [s.batch], startLines2, s.lastLine⟩
      else
        packLoop total N fuel (fn + 1) s.processed s.lastLine startLines2
          (batches ++ [s.batch]) s.rest

/-- The packing stage of `Indexer.__index` on an already-normalized line
stream with a planned batch count `N`: count sizes, seed `start_lines` with
the first line, run the batch loop.  The source raises
`ValueError("No lines to index.")` on an empty stream before reaching the
loop. -/
def packIndex (lines : List String) (N : Nat) : Except PyErr PackResult :=
  match lines with
  | [] => Except.error PyErr.valueError
  | first :: _ =>
      let total := (lines.map sizeOfLine).sum
      packLoop total N N 0 0 "" [first] [] lines

/-- The batch file names of `Indexer.__index`:
`f"{convert_file_number(file_number, optimal_file_number)}.dat"` for each
created batch. -/
def batchFileNames (r : PackResult) (N : Nat) : List String :=
  (List.range r.batches.length).map (fun i => convertFileNumber i N ++ ".dat")

/-- The per-line normalization of `Indexer.index_lines.__yield_lines`: a
missing trailing newline is appended; `line[-1]` on an empty line raises
`IndexError`. -/
def normalizeLine (l : String) : Except PyErr String :=
  match l.data.getLast? with
  | none => Except.error PyErr.indexError
  | some c => Except.ok (if c = '\n' then l else l ++ "\n")

/-- `Indexer.index_lines(lines)` followed by `Indexer.__index`, as a state
transformer on the filesystem.  Returns the final filesystem and the raised
exception, if any.  Mirrors the source order: empty the resource directory,
reject an empty input list, normalize lines, count, pack, write the batch
files, then `__write_index_data` and `__write_storage_data` — both of which
pass their `(path, lines)` arguments to `filetools.write(lines, path)`, i.e.
in swapped positions. -/
def indexLinesRun (fs : FS) (dir : String) (minCount maxCount : Nat)
    (wantedCount : Option Nat) (lines : List String) : FS × Option PyErr :=
  let fs := makeEmptyDir fs dir
  if lines.length = 0 then (fs, some PyErr.valueError)
  else
    match lines.mapM normalizeLine with
    | Except.error e => (fs, some e)
    | Except.ok nlines =>
        let N := findOptimalFileNumber minCount maxCount wantedCount nlines.length
        match packIndex nlines N with
        | Except.error e => (fs, some e)
        | Except.ok r =>
            let names := batchFileNames r N
            let filePaths := names.map (joinPaths dir)
            let fs := (List.zip filePaths r.batches).foldl
              (fun acc nb => setFS acc nb.1 (String.join nb.2)) fs
            let indexPath := joinPaths dir ".index"
            match pyWrite fs (PyVal.str indexPath) (PyVal.str r.lastLine) false with
            | Except.error e => (fs, some e)
            | Except.ok fs1 =>
                match pyWrite fs1 (PyVal.str indexPath)
                    (PyVal.str (toString r.startLines.length ++ "\n")) true with
                | Except.error e => (fs1, some e)
                | Except.ok fs2 =>
                    match pyWrite fs2 (PyVal.str indexPath)
                        (PyVal.strList r.startLines) true with
                    | Except.error e => (fs2, some e)
                    | Except.ok fs3 =>
                        match pyWrite fs3 (PyVal.str (joinPaths dir ".storage"))
                            (PyVal.strList (filePaths.map (fun p => p ++ "\n"))) false with
                        | Except.error e => (fs3, some e)
                        | Except.ok fs4 => (fs4, none)

/-! ## `preprocess.py` — per-file sort and k-way merge -/

/-- Splitting file content into lines, keeping the `'\n'` terminators, as
Python file iteration does. -/
def splitAux : List Char → List Char → List (List Char)
  | [], acc => if acc.isEmpty then [] else [acc.reverse]
  | c :: rest, acc =>
      if c = '\n' then (acc.reverse ++ ['\n']) :: splitAux rest []
      else splitAux rest (c :: acc)

/-- The lines of a file's text, terminators included. -/
def splitLinesKeep (s : String) : List String :=
  (splitAux s.data []).map (fun l => String.mk l)

/-- Insert into an ascending list (used to model Python `sorted`). -/
def insertAscStr (x : String) : List String → List String
  | [] => [x]
  | y :: ys => if pyLt y x = true then y :: insertAscStr x ys else x :: y :: ys

/-- Python `sorted` on a list of strings (insertion sort; the value is the
canonical ascending reordering, which is all `sorted` guarantees). -/
def sortStrings (l : List String) : List String := l.foldr insertAscStr []

/-- Collapse adjacent duplicates of a sorted list; composed with
`sortStrings` this is the value of Python `sorted(set(...))`. -/
def dedupSorted : List String → List String
  | [] => []
  | [x] => [x]
  | x :: y :: rest =>
      if x = y then dedupSorted (y :: rest) else x :: dedupSorted (y :: rest)

/-- The line transformation of `preprocess.sort_file`: `sorted(set(file))`. -/
def sortFileLines (lines : List String) : List String :=
  dedupSorted (sortStrings lines)

/-- `preprocess.sort_file(input_path, output_path)` on the filesystem.  The
source ends with `write(output_path, sorted(lines))`, whose arguments land in
`filetools.write(lines, path, ...)` — so the sorted list arrives in the
`path` parameter. -/
def sortFileFS (fs : FS) (inputPath outputPath : String) : Except PyErr FS :=
  match lookupFS fs inputPath with
  | none => Except.error PyErr.fileNotFound
  | some content =>
      pyWrite fs (PyVal.str outputPath)
        (PyVal.strList (sortFileLines (splitLinesKeep content))) false

/-- The basename of a POSIX path. -/
def basenameAux : List Char → List Char → List Char
  | [], acc => acc.reverse
  | c :: rest, acc =>
      if c = '/' then basenameAux rest [] else basenameAux rest (c :: acc)

/-- `filetools.get_basename`. -/
def getBasename (p : String) : String := String.mk (basenameAux p.data [])

/-- `preprocess.sort_files_separately`, filesystem part: sort each input file
into `output_dir/basename`. -/
def sortFilesSeparatelyFS (fs : FS) (outDir : String) :
    List String → Except PyErr FS
  | [] => Except.ok fs
  | p :: rest =>
      match sortFileFS fs p (joinPaths outDir (getBasename p)) with
      | Except.error e => Except.error e
      | Except.ok fs2 => sortFilesSeparatelyFS fs2 outDir rest

/-- Advance a line iterator past values equal to `last_value`, as
`merge_sorted_files` does after taking a head
(`value = next(generator); while value == last_value: value = next(...)`). -/
def skipEq (v : String) : List String → Option (String × List String)
  | [] => none
  | l :: rest => if l = v then skipEq v rest else some (l, rest)

/-- Insertion into the pending collection of `(current_line, iterator)`
pairs.  The source keeps the list sorted descending by head and inserts
before the first strictly smaller head, scanning from the front; the
embedding keeps the reversed (ascending) list, so the minimum is the head
and the insertion goes after all strictly smaller heads. -/
def insertAsc (x : String × List String) :
    List (String × List String) → List (String × List String)
  | [] => [x]
  | y :: ys => if pyLt y.1 x.1 = true then y :: insertAsc x ys else x :: y :: ys

/-- Size of one pending entry: its head plus its remaining lines. -/
def pendSize (p : String × List String) : Nat := 1 + p.2.length

/-- Total number of not-yet-consumed lines in the pending collection. -/
def pendMeasure (l : List (String × List String)) : Nat :=
  (l.map pendSize).sum

/-- The nested loops of `preprocess.merge_sorted_files` over the output files
(`for file_number in range(generator_count)`) and the per-file
`while current_line_index < current_limit` loop.  Arguments: fuel, the
current `file_number`, `current_line_index`, `current_limit`, `last_value`,
the pending `(head, rest)` collection in ascending head order, the lines
written to the current output file, and the closed output files.  Every
iteration either consumes at least one input line or closes a file, so the
initial fuel `K + pendMeasure pending` makes the fuel-exhausted branch
unreachable from `mergeSortedLines`; the two `[]`-pending early returns
mirror the source's return on iterator exhaustion, and an empty pending
collection with `idx < limit` cannot be reached (the source would have
returned at the pop that emptied it). -/
def mergeLoop (total K : Nat) : Nat → Nat → Nat → Nat → Option String →
    List (String × List String) → List String → List (List String) →
    List (List String)
  | 0, _, _, _, _, _, cur, outs => outs ++ [cur]
  | fuel + 1, fn, idx, limit, lastValue, pending, cur, outs =>
      if idx < limit then
        match pending with
        | [] => outs ++ [cur]
        | (v, rest) :: others =>
            let cur2 := if lastValue = some v then cur else cur ++ [v]
            let idx2 := if lastValue = some v then idx else idx + 1
            match skipEq v rest with
            | some vr =>
                mergeLoop total K fuel fn idx2 limit (some v)
                  (insertAsc vr others) cur2 outs
            | none =>
                match others with
                | [] => outs ++ [cur2]
                | _ :: _ =>
                    mergeLoop total K fuel fn idx2 limit (some v) others cur2 outs
      else
        if fn + 1 < K then
          mergeLoop total K fuel (fn + 1) idx (total * (fn + 1 + 1) / K)
            lastValue pending [] (outs ++ [cur])
        else outs ++ [cur]

/-- `preprocess.merge_sorted_files` at the level of line contents: the input
files as line lists, the output batch files as line lists.  `K` output files
are planned (one per input iterator), `total_line_count` counts all input
lines, the pending collection is seeded with each non-empty iterator's first
line and sorted by head. -/
def mergeSortedLines (files : List (List String)) : List (List String) :=
  let K := files.length
  let total := (files.map List.length).sum
  let seeds := files.filterMap (fun f =>
    match f with
    | [] => none
    | l :: rest => some (l, rest))
  let pending := seeds.foldl (fun acc x => insertAsc x acc) []
  if K = 0 then []
  else mergeLoop total K (K + pendMeasure pending) 0 0 (total * (0 + 1) / K)
    none pending [] []

/-- The S2 scenario's starting filesystem: three input files with lines
`["2","2"]`, `["4"]`, `["1","4","5","3"]`. -/
def s2Fs : FS :=
  [("input/0", "2\n2\n"), ("input/1", "4\n"), ("input/2", "1\n4\n5\n3\n")]

/-- The S2 pipeline: per-file sort (`sort_files_separately`) into `sorted/`,
then the 3-way merge of the sorted files' contents. -/
def s2Pipeline : Except PyErr (List (List String)) :=
  match sortFilesSeparatelyFS s2Fs "sorted" ["input/0", "input/1", "input/2"] with
  | Except.error e => Except.error e
  | Except.ok fs =>
      Except.ok (mergeSortedLines (["sorted/0", "sorted/1", "sorted/2"].map
        (fun p => splitLinesKeep ((lookupFS fs p).getD ""))))

/-! ## Order lemmas for the embedded string comparison -/

theorem listLtB_nil_right (l : List Char) : listLtB l [] = false := by
  cases l <;> rfl

theorem charCode_inj {a b : Char} (h : charCode a = charCode b) : a = b :=
  Char.eq_of_val_eq (UInt32.toNat.inj h)

theorem listLtB_cons_iff (a b : Char) (as bs : List Char) :
    listLtB (a :: as) (b :: bs) = true ↔
      charCode a < charCode b ∨ (charCode a = charCode b ∧ listLtB as bs = true) := by
  simp only [listLtB]
  split_ifs with h1 h2
  · simp [h1]
  · simp only [false_iff]
    push_neg
    exact ⟨by omega, fun hEq => absurd hEq (by omega)⟩
  · have he : charCode a = charCode b := by omega
    simp [he]

theorem listLtB_irrefl (l : List Char) : listLtB l l = false := by
  induction l with
  | nil => rfl
  | cons a as ih =>
      simp only [listLtB, Nat.lt_irrefl, if_false]
      exact ih

theorem listLtB_trans (a : List Char) : ∀ b c : List Char,
    listLtB a b = true → listLtB b c = true → listLtB a c = true := by
  induction a with
  | nil =>
      intro b c hab hbc
      cases b with
      | nil => simp [listLtB] at hab
      | cons y ys =>
          cases c with
          | nil => simp [listLtB] at hbc
          | cons z zs => rfl
  | cons x xs ih =>
      intro b c hab hbc
      cases b with
      | nil => simp [listLtB] at hab
      | cons y ys =>
          cases c with
          | nil => simp [listLtB] at hbc
          | cons z zs =>
              rw [listLtB_cons_iff] at hab hbc ⊢
              rcases hab with h1 | ⟨h1, h1r⟩ <;> rcases hbc with h2 | ⟨h2, h2r⟩
              · exact Or.inl (h1.trans h2)
              · exact Or.inl (by omega)
              · exact Or.inl (by omega)
              · exact Or.inr ⟨by omega, ih ys zs h1r h2r⟩

theorem listLtB_conn (a : List Char) : ∀ b : List Char,
    listLtB a b = false → listLtB b a = false → a = b := by
  induction a with
  | nil =>
      intro b hab _
      cases b with
      | nil => rfl
      | cons y ys => simp [listLtB] at hab
  | cons x xs ih =>
      intro b hab hba
      cases b with
      | nil => simp [listLtB] at hba
      | cons y ys =>
          by_cases h1 : charCode x < charCode y
          · simp [listLtB, h1] at hab
          · by_cases h2 : charCode y < charCode x
            · simp [listLtB, h2] at hba
            · have hxy : x = y := charCode_inj (by omega)
              subst hxy
              simp only [listLtB, Nat.lt_irrefl, if_false] at hab hba
              rw [ih ys hab hba]

theorem string_data_inj {a b : String} (h : a.data = b.data) : a = b := by
  cases a
  cases b
  cases h
  rfl

theorem pyLt_irrefl (s : String) : pyLt s s = false := listLtB_irrefl s.data

theorem pyLt_trans {a b c : String} (h1 : pyLt a b = true) (h2 : pyLt b c = true) :
    pyLt a c = true := listLtB_trans a.data b.data c.data h1 h2

theorem pyLt_asymm {a b : String} (h : pyLt a b = true) : pyLt b a = false := by
  cases hba : pyLt b a
  · rfl
  · have hx := pyLt_trans h hba
    rw [pyLt_irrefl] at hx
    exact Bool.noConfusion hx

theorem pyLt_conn {a b : String} (h1 : pyLt a b = false) (h2 : pyLt b a = false) :
    a = b := string_data_inj (listLtB_conn a.data b.data h1 h2)

theorem lineLe_refl (a : String) : lineLe a a := pyLt_irrefl a

theorem lineLe_of_lt {a b : String} (h : lineLt a b) : lineLe a b := pyLt_asymm h

theorem lineLt_ne {a b : String} (h : lineLt a b) : a ≠ b := by
  intro he
  subst he
  rw [lineLt, pyLt_irrefl] at h
  exact Bool.noConfusion h

theorem lineLt_of_le_of_ne {a b : String} (h : lineLe a b) (hne : a ≠ b) :
    lineLt a b := by
  rw [lineLt]
  cases hab : pyLt a b
  · exact absurd (pyLt_conn hab h) hne
  · rfl

theorem lineLt_trans {a b c : String} (h1 : lineLt a b) (h2 : lineLt b c) :
    lineLt a c := pyLt_trans h1 h2

theorem lineLe_trans {a b c : String} (h1 : lineLe a b) (h2 : lineLe b c) :
    lineLe a c := by
  rw [lineLe]
  cases hca : pyLt c a
  · rfl
  · cases hab : pyLt a b
    · rw [pyLt_conn hab h1] at hca
      rw [lineLe, hca] at h2
      exact Bool.noConfusion h2
    · have hcb := pyLt_trans hca hab
      rw [lineLe, hcb] at h2
      exact Bool.noConfusion h2

theorem lineLt_of_le_of_lt {a b c : String} (h1 : lineLe a b) (h2 : lineLt b c) :
    lineLt a c := by
  cases hab : pyLt a b
  · rw [pyLt_conn hab h1]
    exact h2
  · exact lineLt_trans hab h2

theorem lineLe_empty (s : String) : lineLe "" s := listLtB_nil_right s.data


/-! ## Binary search helper lemmas -/

theorem bsLoop_le (item : String) (A : List String) :
    ∀ fuel l r, l ≤ r → bsLoop item A fuel l r ≤ r := by
  intro fuel
  induction fuel with
  | zero => intro l r h; exact h
  | succ fuel ih =>
      intro l r h
      simp only [bsLoop]
      split_ifs with hlr hcmp
      · exact le_trans (ih l ((l + r + 1) / 2 - 1) (by omega)) (by omega)
      · exact ih ((l + r + 1) / 2) r (by omega)
      · exact h

theorem bs_has_mem {item : String} {A : List String} (h : bs_has item A = true) :
    item ∈ A := by
  rw [bs_has] at h
  split_ifs at h with hguard
  case _ =>
    have hlen : A.length ≠ 0 := by
      intro h0
      exact hguard (by simp [h0])
    have hle : bsLoop item A A.length 0 (A.length - 1) ≤ A.length - 1 :=
      bsLoop_le item A A.length 0 (A.length - 1) (Nat.zero_le _)
    have hlt : bsLoop item A A.length 0 (A.length - 1) < A.length := by omega
    have hget := List.getD_eq_getElem?_getD A
      (bsLoop item A A.length 0 (A.length - 1)) ""
    rw [hget] at h
    rcases he : A[bsLoop item A A.length 0 (A.length - 1)]? with _ | b
    · have := List.getElem?_eq_none_iff.mp he
      omega
    · rw [he] at h
      simp only [Option.getD_some, beq_iff_eq] at h
      rw [← h]
      exact List.getElem?_mem he

/-- If `bs_has` holds, the item is a member; contrapositive form. -/
theorem bs_has_eq_false {item : String} {A : List String} (h : item ∉ A) :
    bs_has item A = false := by
  cases hb : bs_has item A
  · rfl
  · exact absurd (bs_has_mem hb) h

/-! ## Lookup engine helper lemmas -/

/-- The normalized query of `has` can never be a valid stored line when it
contains an interior newline, so the in-batch search fails. -/
theorem hasLine_eq_false_of_newline (data : BatchKeyData)
    (storage : List (List String))
    (hv : ∀ b ∈ storage, ∀ s ∈ b, validLine s = true) (x : String)
    (hx : '\n' ∈ (x ++ "\n").data.dropLast) :
    hasLine data storage x = false := by
  rw [hasLine]
  split_ifs with hguard
  · rfl
  · rcases hidx : bs_lower_index (x ++ "\n") data.batch_start_lines with _ | i
    · rfl
    · simp only []
      apply bs_has_eq_false
      intro hmem
      have hex : ∃ b ∈ storage, (x ++ "\n") ∈ b := by
        rw [List.getD_eq_getElem?_getD] at hmem
        rcases he : storage[i]? with _ | b
        · rw [he] at hmem
          simp at hmem
        · rw [he] at hmem
          exact ⟨b, List.getElem?_mem he, hmem⟩
      rcases hex with ⟨b, hb, hqb⟩
      have hqv := hv b hb _ hqb
      rw [validLine, decide_eq_true_iff] at hqv
      exact hqv.2.2 hx

/-! ## Packer lemmas -/

/-- The inner packing loop only moves `last_line` forward along the sorted
stream: the final `last_line` dominates the old one and still precedes the
unconsumed rest. -/
theorem packInner_pairwise (limit : Nat) :
    ∀ (rest : List String) (processed : Nat) (lastLine : String)
      (batch : List String),
      List.Pairwise lineLe (lastLine :: rest) →
      lineLe lastLine (packInner limit processed lastLine batch rest).lastLine ∧
      List.Pairwise lineLe
        ((packInner limit processed lastLine batch rest).lastLine
          :: (packInner limit processed lastLine batch rest).rest) := by
  intro rest
  induction rest with
  | nil =>
      intro processed lastLine batch _
      exact ⟨lineLe_refl lastLine, List.pairwise_singleton _ _⟩
  | cons l t ih =>
      intro processed lastLine batch h
      rcases List.pairwise_cons.mp h with ⟨hle, htail⟩
      rw [packInner]
      split_ifs with hlim
      · exact ⟨hle l (List.mem_cons_self l t), htail⟩
      · rcases ih (processed + sizeOfLine l) l (batch ++ [l]) htail with ⟨h1, h2⟩
        exact ⟨lineLe_trans (hle l (List.mem_cons_self l t)) h1, h2⟩

/-- On a non-empty stream the final `last_line` of the inner loop dominates
the stream's first line. -/
theorem packInner_head (limit : Nat) (processed : Nat) (lastLine : String)
    (batch : List String) (l : String) (t : List String)
    (h : List.Pairwise lineLe (lastLine :: l :: t)) :
    lineLe l (packInner limit processed lastLine batch (l :: t)).lastLine := by
  rcases List.pairwise_cons.mp h with ⟨_, htail⟩
  rw [packInner]
  split_ifs with hlim
  · exact lineLe_refl l
  · exact (packInner_pairwise limit t (processed + sizeOfLine l) l (batch ++ [l])
      htail).1

/-- The separators collected by the packing loop stay sorted: each appended
separator is the current `last_line`, which only moves forward. -/
theorem packLoop_startLines_pairwise (total N : Nat) :
    ∀ (fuel fn processed : Nat) (lastLine : String) (startLines : List String)
      (batches : List (List String)) (rest : List String) (r : PackResult),
      List.Pairwise lineLe (lastLine :: rest) →
      List.Pairwise lineLe startLines →
      (∀ x ∈ startLines, lineLe x lastLine) →
      fn ≠ 0 →
      packLoop total N fuel fn processed lastLine startLines batches rest
          = Except.ok r →
      List.Pairwise lineLe r.startLines := by
  intro fuel
  induction fuel with
  | zero =>
      intro fn processed lastLine startLines batches rest r _ _ _ _ hok
      exact Except.noConfusion hok
  | succ fuel ih =>
      intro fn processed lastLine startLines batches rest r h1 h2 h3 hfn hok
      rw [packLoop] at hok
      rw [if_neg hfn, if_neg hfn] at hok
      have hstart2 : List.Pairwise lineLe (startLines ++ [lastLine]) := by
        rw [List.pairwise_append]
        exact ⟨h2, List.pairwise_singleton _ _,
          fun x hx y hy => by rw [List.mem_singleton] at hy; rw [hy]; exact h3 x hx⟩
      have hmono := (packInner_pairwise (total * (fn + 1) / N) rest processed
        lastLine [lastLine] h1).1
      have hrest := (packInner_pairwise (total * (fn + 1) / N) rest processed
        lastLine [lastLine] h1).2
      split at hok
      · rcases Except.ok.inj hok with rfl
        exact hstart2
      · refine ih (fn + 1) _ _ _ _ _ r hrest hstart2 ?_ (Nat.succ_ne_zero fn) hok
        intro x hx
        rcases List.mem_append.mp hx with hx | hx
        · exact lineLe_trans (h3 x hx) hmono
        · rw [List.mem_singleton] at hx
          rw [hx]
          exact hmono

/-! ## Claim theorems -/

/-- Claim C2 (counterexample): with the ordered, unique, non-empty stream
`["aaaaaaaa\n", "b\n"]` and planned batch count `2`, the packing stage
creates an empty first batch file and the separator list
`["aaaaaaaa\n", "aaaaaaaa\n"]`, which is not strictly increasing: the first
line's 9 bytes already exceed the first batch's byte budget `⌊11·1/2⌋ = 5`,
so the batch closes before receiving any line. -/
theorem C2_counterexample :
    packIndex ["aaaaaaaa\n", "b\n"] 2 =
      Except.ok ⟨[[], ["aaaaaaaa\n", "b\n"]], ["aaaaaaaa\n", "aaaaaaaa\n"], "b\n"⟩ ∧
    List.Pairwise lineLt ["aaaaaaaa\n", "b\n"] ∧
    ¬ (List.Pairwise lineLt ["aaaaaaaa\n", "aaaaaaaa\n"] ∧
        ∀ b ∈ [([] : List String), ["aaaaaaaa\n", "b\n"]], b ≠ []) := by
  exact ⟨by rfl, by decide, by decide⟩

/-- Claim C2 (amended): for every sorted input line stream and planned batch
count, the separator list produced by the batch-packing stage of
`Indexer.__index` is non-decreasing; it need not be strictly increasing and a
created batch file may be empty (a single line larger than a batch's byte
budget repeats the separator, as the counterexample shows). -/
theorem C2_amended (lines : List String) (N : Nat) (r : PackResult)
    (hs : List.Pairwise lineLe lines)
    (hok : packIndex lines N = Except.ok r) :
    List.Pairwise lineLe r.startLines := by
  rcases lines with _ | ⟨first, restL⟩
  · exact Except.noConfusion hok
  · rw [packIndex] at hok
    rcases N with _ | M
    · exact Except.noConfusion hok
    · rw [packLoop] at hok
      simp only [eq_self_iff_true, if_true] at hok
      have h0 : List.Pairwise lineLe ("" :: first :: restL) :=
        List.pairwise_cons.mpr ⟨fun x _ => lineLe_empty x, hs⟩
      split at hok
      · rcases Except.ok.inj hok with rfl
        exact List.pairwise_singleton _ _
      · refine packLoop_startLines_pairwise _ _ M 1 _ _ _ _ _ r
          ?_ (List.pairwise_singleton _ _) ?_ one_ne_zero hok
        · exact (packInner_pairwise _ (first :: restL) 0 "" [] h0).2
        · intro x hx
          rw [List.mem_singleton] at hx
          rw [hx]
          exact packInner_head _ 0 "" [] first restL h0

/-- Claim C2 witness: the amended theorem applied to the concrete sorted
stream `["a\n", "b\n"]` with two planned batches. -/
theorem C2_amended_witness :
    List.Pairwise lineLe ["a\n", "b\n"] :=
  C2_amended ["a\n", "b\n"] 2
    ⟨[["a\n"], ["b\n"]], ["a\n", "b\n"], "b\n"⟩ (by decide) (by rfl)

/-- Claim C3 (counterexample): on the index holding exactly the line `"a"`,
`has("a")` is true but `has("a" ++ "\n")` is false, because
`LineBatchedIndex.has` appends `"\n"` unconditionally and searches for
`"a\n\n"`. -/
theorem C3_counterexample :
    hasLine ⟨"a\n", ["a\n"]⟩ [["a\n"]] "a" = true ∧
    hasLine ⟨"a\n", ["a\n"]⟩ [["a\n"]] ("a" ++ "\n") = false := by
  exact ⟨by decide, by decide⟩

/-- Claim C3 (amended): `has` appends a newline unconditionally (not only
when absent), so on every index whose stored lines are newline-terminated
with no interior newline, `has(l ++ "\n")` is false for every `l`; hence
`has(l)` and `has(l ++ "\n")` agree exactly when `has(l)` is false. -/
theorem C3_amended (data : BatchKeyData) (storage : List (List String))
    (hv : ∀ b ∈ storage, ∀ s ∈ b, validLine s = true) (l : String) :
    hasLine data storage (l ++ "\n") = false := by
  apply hasLine_eq_false_of_newline data storage hv
  show '\n' ∈ ((l ++ "\n").data ++ ['\n']).dropLast
  rw [List.dropLast_concat, String.data_append]
  exact List.mem_append_right _ (by decide)

/-- Claim C3 witness: the amended theorem evaluated on the singleton index
over `"a\n"` and the query `"a"`. -/
theorem C3_amended_witness :
    hasLine ⟨"a\n", ["a\n"]⟩ [["a\n"]] ("a" ++ "\n") = false :=
  C3_amended ⟨"a\n", ["a\n"]⟩ [["a\n"]] (by decide) "a"

/-- Claim C5: `bs_upper_index` (the spec's `ceil_index`) does not return the
smallest index with `A[i] ≥ x`: on `A = ["b"]`, `x = "a"` it returns `none`
although the claim (and the function's own docstring) require index `0`, and
on `A = ["a", "c"]`, `x = "b"` it returns the floor index `0` instead of `1` —
its body is a verbatim copy of `bs_lower_index`. -/
theorem C5_ceil_index_code_bug :
    bs_upper_index "a" ["b"] = none ∧ bs_upper_index "b" ["a", "c"] = some 0 := by
  exact ⟨by decide, by decide⟩

/-- Claim C7: on every index whose batches and separators are
newline-terminated lines without interior newlines, a query line containing
an embedded newline before its final character is rejected: the normalized
query keeps an interior newline and can equal no stored line. -/
theorem C7_embedded_newline (data : BatchKeyData) (storage : List (List String))
    (hv : ∀ b ∈ storage, ∀ s ∈ b, validLine s = true)
    (hsep : ∀ s ∈ data.batch_start_lines, validLine s = true)
    (hlast : validLine data.last_line = true)
    (l : String) (hl : '\n' ∈ l.data.dropLast) :
    hasLine data storage l = false := by
  apply hasLine_eq_false_of_newline data storage hv
  show '\n' ∈ (l.data ++ ['\n']).dropLast
  rw [List.dropLast_concat]
  exact List.dropLast_subset _ hl

/-- Claim C7 witness: the singleton index over `"b\n"` rejects the query
`"a\nc"`, whose newline sits before its final character. -/
theorem C7_witness :
    hasLine ⟨"b\n", ["b\n"]⟩ [["b\n"]] "a\nc" = false :=
  C7_embedded_newline ⟨"b\n", ["b\n"]⟩ [["b\n"]] (by decide) (by decide)
    (by decide) "a\nc" (by decide)

/-- Claim C8: `IndexerOptions` construction raises exactly when a provided
count lies outside `[1, 1_000_000_000]`, or `max_file_count < min_file_count`,
or a provided `wanted_file_count` lies outside `[min, max]`. -/
theorem C8_options_validation (minCount maxCount : Int)
    (wantedCount : Option Int) :
    optionsRaise minCount maxCount wantedCount = true ↔
      ((minCount < 1 ∨ 1000000000 < minCount) ∨
       (maxCount < 1 ∨ 1000000000 < maxCount) ∨
       (∃ w, wantedCount = some w ∧ (w < 1 ∨ 1000000000 < w)) ∨
       maxCount < minCount ∨
       (∃ w, wantedCount = some w ∧ (w < minCount ∨ maxCount < w))) := by
  cases wantedCount <;> simp [optionsRaise] <;> omega

/-- Claim C10: `index_lines([])` raises the empty-input `ValueError`, but
only after `make_empty_dir` has already run: in the resulting state every
file previously stored under the resource directory is gone. -/
theorem C10_empty_input_clears_dir (fs : FS) (dir : String)
    (minCount maxCount : Nat) (wantedCount : Option Nat) :
    (indexLinesRun fs dir minCount maxCount wantedCount []).2
        = some PyErr.valueError ∧
    ∀ e ∈ (indexLinesRun fs dir minCount maxCount wantedCount []).1,
      strPrefixOf (dir ++ "/") e.1 = false := by
  constructor
  · rfl
  · intro e he
    have hm : e ∈ makeEmptyDir fs dir := he
    rw [makeEmptyDir] at hm
    have hf := List.mem_filter.mp hm
    have := hf.2
    simp only [decide_eq_true_eq] at this
    cases hp : strPrefixOf (dir ++ "/") e.1
    · rfl
    · exact absurd hp this

/-- Claim C1: the round-trip fails on the code.  `index_lines` on the sorted
set `{"1", ..., "5"}` raises `TypeError` before any sidecar exists: the
`.index` writes pass `filetools.write(lines, path)` its arguments in swapped
positions, so the separator list lands in the `path` parameter of `open`.
The second conjunct shows a pre-existing `.index` file is deleted and never
recreated, so a subsequent `load()` cannot find index data. -/
theorem C1_roundtrip_code_bug :
    (indexLinesRun [] "res" 1 1000000 (some 3) ["1", "2", "3", "4", "5"]).2
        = some PyErr.typeError ∧
    lookupFS (indexLinesRun [("res/.index", "old")] "res" 1 1000000 (some 3)
        ["1", "2", "3", "4", "5"]).1 "res/.index" = none := by
  exact ⟨by decide, by decide⟩

/-! ## Batch-name width lemmas (C9) -/

theorem widthLoopAux_eq : ∀ fuel g, g ≤ fuel →
    widthLoopAux fuel g = (Nat.digits 16 g).length := by
  intro fuel
  induction fuel with
  | zero =>
      intro g hg
      have : g = 0 := by omega
      subst this
      simp [widthLoopAux]
  | succ fuel ih =>
      intro g hg
      by_cases h0 : g = 0
      · subst h0
        simp [widthLoopAux]
      · rw [widthLoopAux, if_neg h0]
        rw [ih (g / 16) (by
          have : g / 16 < g := Nat.div_lt_self (Nat.pos_of_ne_zero h0) (by omega)
          omega)]
        rw [Nat.digits_def' (by omega : 1 < 16) (Nat.pos_of_ne_zero h0)]
        simp [Nat.add_comm]

theorem hexRevAux_eq : ∀ fuel g, g ≤ fuel →
    hexRevAux fuel g = (Nat.digits 16 g).map hexDigitCharU := by
  intro fuel
  induction fuel with
  | zero =>
      intro g hg
      have : g = 0 := by omega
      subst this
      simp [hexRevAux]
  | succ fuel ih =>
      intro g hg
      by_cases h0 : g = 0
      · subst h0
        simp [hexRevAux]
      · rw [hexRevAux, if_neg h0]
        rw [ih (g / 16) (by
          have : g / 16 < g := Nat.div_lt_self (Nat.pos_of_ne_zero h0) (by omega)
          omega)]
        rw [Nat.digits_def' (by omega : 1 < 16) (Nat.pos_of_ne_zero h0)]
        simp

theorem toHexUpper_eq_spec (n : Nat) : toHexUpper n = specHexStr n := by
  rw [toHexUpper, specHexStr]
  by_cases h0 : n = 0
  · rw [if_pos h0, if_pos h0]
  · rw [if_neg h0, if_neg h0, hexRevAux_eq n n le_rfl]

theorem convertFileNumber_dat_eq (n N : Nat) :
    convertFileNumber n N ++ ".dat" = specBatchFileName n N := by
  rw [convertFileNumber, specBatchFileName, toHexUpper_eq_spec,
    widthLoopAux_eq (N - 1) (N - 1) le_rfl]

/-- Claim C9 (counterexample): a build over five two-byte lines with
`wanted_file_count = 3` and the default `max_file_count = 1_000_000` creates
batch files `0.dat`, `1.dat`, `2.dat`: the hex width is computed from the
actual planned batch count `3`, not from the million-file ceiling, whose
`ceil(log16(...))` is `5` (`16^4 < 10^6 ≤ 16^5`), which would demand
`00000.dat`. -/
theorem C9_counterexample :
    (packIndex ["1\n", "2\n", "3\n", "4\n", "5\n"]
        (findOptimalFileNumber 1 1000000 (some 3) 5)).map
      (fun r => batchFileNames r (findOptimalFileNumber 1 1000000 (some 3) 5))
      = Except.ok ["0.dat", "1.dat", "2.dat"] ∧
    (16 ^ 4 < 1000000 ∧ 1000000 ≤ 16 ^ 5) ∧
    "0.dat" ≠ rjust (toHexUpper 0) 5 '0' ++ ".dat" := by
  exact ⟨by rfl, by decide, by decide⟩

/-- Claim C9 (amended): every batch file name produced by a build is the
zero-padded uppercase hexadecimal encoding of its batch number followed by
`.dat`, but the fixed width is the number of base-16 digits of `N - 1` for
the actual planned batch count `N` (zero digits when `N = 1`), not
`ceil(log16(max_file_count_limit))`. -/
theorem C9_amended (r : PackResult) (N i : Nat) (name : String)
    (hn : (batchFileNames r N)[i]? = some name) :
    name = specBatchFileName i N := by
  rw [batchFileNames] at hn
  rw [List.getElem?_map] at hn
  rcases hn2 : (List.range r.batches.length)[i]? with _ | j
  · rw [hn2] at hn
    exact Option.noConfusion hn
  · rw [hn2] at hn
    rw [Option.map] at hn
    have hilt : i < r.batches.length := by
      by_contra hge
      rw [List.getElem?_eq_none_iff.mpr (by simpa using hge)] at hn2
      exact Option.noConfusion hn2
    have hj : j = i := by
      rw [List.getElem?_range hilt] at hn2
      exact (Option.some.inj hn2).symm
    rcases Option.some.inj hn with rfl
    rw [hj, convertFileNumber_dat_eq]

/-- Claim C9 witness: the amended theorem on the three-batch build, whose
first file is `0.dat` and whose spec-side name with width `digits16(2) = 1`
agrees. -/
theorem C9_amended_witness :
    "0.dat" = specBatchFileName 0 3 :=
  C9_amended ⟨[["1\n"], ["2\n", "3\n"], ["4\n", "5\n"]], ["1\n", "2\n", "4\n"],
    "5\n"⟩ 3 0 "0.dat" (by rfl)

/-! ## Merge lemmas (C4, C6) -/

theorem flatten_concat (outs : List (List String)) (cur : List String) :
    (outs ++ [cur]).flatten = outs.flatten ++ cur := by
  simp

/-- Skipping the repetitions of the taken value on its own iterator yields a
strictly larger head with a still-sorted tail. -/
theorem skipEq_some (v : String) :
    ∀ (rest : List String) (v2 : String) (rest2 : List String),
      List.Pairwise lineLe (v :: rest) →
      skipEq v rest = some (v2, rest2) →
      lineLt v v2 ∧ List.Pairwise lineLe (v2 :: rest2) := by
  intro rest
  induction rest with
  | nil =>
      intro v2 rest2 _ hsk
      exact Option.noConfusion hsk
  | cons l t ih =>
      intro v2 rest2 h hsk
      rcases List.pairwise_cons.mp h with ⟨hvle, htail⟩
      rw [skipEq] at hsk
      split_ifs at hsk with heq
      · subst heq
        refine ih v2 rest2 ?_ hsk
        refine List.pairwise_cons.mpr ⟨?_, (List.pairwise_cons.mp htail).2⟩
        intro x hx
        exact hvle x (List.mem_cons_of_mem l hx)
      · rcases Prod.mk.injEq .. ▸ Option.some.inj hsk with ⟨rfl, rfl⟩
        exact ⟨lineLt_of_le_of_ne (hvle l (List.mem_cons_self l t))
          (fun hvl => heq hvl.symm), htail⟩

theorem insertAsc_mem (x : String × List String) :
    ∀ (l : List (String × List String)) (p : String × List String),
      p ∈ insertAsc x l ↔ p = x ∨ p ∈ l := by
  intro l
  induction l with
  | nil =>
      intro p
      simp [insertAsc]
  | cons y ys ih =>
      intro p
      rw [insertAsc]
      split_ifs with hcmp
      · rw [List.mem_cons, ih p, List.mem_cons]
        tauto
      · simp [List.mem_cons]

theorem insertAsc_keys (x : String × List String) :
    ∀ (l : List (String × List String)),
      List.Pairwise (fun a b => lineLe a.1 b.1) l →
      List.Pairwise (fun a b => lineLe a.1 b.1) (insertAsc x l) := by
  intro l
  induction l with
  | nil =>
      intro _
      exact List.pairwise_singleton _ _
  | cons y ys ih =>
      intro h
      rcases List.pairwise_cons.mp h with ⟨hy, hys⟩
      rw [insertAsc]
      split_ifs with hcmp
      · refine List.pairwise_cons.mpr ⟨?_, ih hys⟩
        intro p hp
        rcases (insertAsc_mem x ys p).mp hp with rfl | hp
        · exact lineLe_of_lt hcmp
        · exact hy p hp
      · have hxy : lineLe x.1 y.1 := by
          cases hc : pyLt y.1 x.1
          · exact hc
          · exact absurd hc hcmp
        refine List.pairwise_cons.mpr ⟨?_, h⟩
        intro p hp
        rcases List.mem_cons.mp hp with rfl | hp
        · exact hxy
        · exact lineLe_trans hxy (hy p hp)

theorem foldl_insertAsc_mem :
    ∀ (seeds : List (String × List String)) (acc : List (String × List String))
      (p : String × List String),
      p ∈ seeds.foldl (fun a x => insertAsc x a) acc → p ∈ acc ∨ p ∈ seeds := by
  intro seeds
  induction seeds with
  | nil =>
      intro acc p hp
      exact Or.inl hp
  | cons s ss ih =>
      intro acc p hp
      rcases ih (insertAsc s acc) p hp with hin | hin
      · rcases (insertAsc_mem s acc p).mp hin with rfl | hin
        · exact Or.inr (List.mem_cons_self _ _)
        · exact Or.inl hin
      · exact Or.inr (List.mem_cons_of_mem s hin)

theorem foldl_insertAsc_keys :
    ∀ (seeds : List (String × List String)) (acc : List (String × List String)),
      List.Pairwise (fun a b => lineLe a.1 b.1) acc →
      List.Pairwise (fun a b => lineLe a.1 b.1)
        (seeds.foldl (fun a x => insertAsc x a) acc) := by
  intro seeds
  induction seeds with
  | nil =>
      intro acc h
      exact h
  | cons s ss ih =>
      intro acc h
      exact ih (insertAsc s acc) (insertAsc_keys s acc h)

/-- Unfolding equation of `mergeLoop` at fuel `0`. -/
theorem mergeLoop_zero (total K fn idx limit : Nat) (lv : Option String)
    (pending : List (String × List String)) (cur : List String)
    (outs : List (List String)) :
    mergeLoop total K 0 fn idx limit lv pending cur outs = outs ++ [cur] := rfl

/-- Unfolding equation of `mergeLoop` with an empty pending collection. -/
theorem mergeLoop_succ_nil (total K fuel fn idx limit : Nat) (lv : Option String)
    (cur : List String) (outs : List (List String)) :
    mergeLoop total K (fuel + 1) fn idx limit lv [] cur outs =
      if idx < limit then outs ++ [cur]
      else if fn + 1 < K then
        mergeLoop total K fuel (fn + 1) idx (total * (fn + 1 + 1) / K) lv [] []
          (outs ++ [cur])
      else outs ++ [cur] := rfl

/-- Unfolding equation of `mergeLoop` with a non-empty pending collection. -/
theorem mergeLoop_succ_cons (total K fuel fn idx limit : Nat) (lv : Option String)
    (v : String) (rest : List String) (others : List (String × List String))
    (cur : List String) (outs : List (List String)) :
    mergeLoop total K (fuel + 1) fn idx limit lv ((v, rest) :: others) cur outs =
      if idx < limit then
        (match skipEq v rest with
         | some vr =>
             mergeLoop total K fuel fn (if lv = some v then idx else idx + 1)
               limit (some v) (insertAsc vr others)
               (if lv = some v then cur else cur ++ [v]) outs
         | none =>
             match others with
             | [] => outs ++ [if lv = some v then cur else cur ++ [v]]
             | _ :: _ =>
                 mergeLoop total K fuel fn (if lv = some v then idx else idx + 1)
                   limit (some v) others
                   (if lv = some v then cur else cur ++ [v]) outs)
      else
        if fn + 1 < K then
          mergeLoop total K fuel (fn + 1) idx (total * (fn + 1 + 1) / K) lv
            ((v, rest) :: others) [] (outs ++ [cur])
        else outs ++ [cur] := rfl

/-- The master invariant of the merge loop: if every pending iterator is
sorted, the pending heads are sorted, every pending value dominates the last
emitted value, and the emitted output so far is strictly sorted and bounded
by the last emitted value, then the full output of the loop is strictly
sorted. -/
theorem mergeLoop_pairwise (total K : Nat) :
    ∀ (fuel fn idx limit : Nat) (lastValue : Option String)
      (pending : List (String × List String)) (cur : List String)
      (outs : List (List String)),
      (∀ p ∈ pending, List.Pairwise lineLe (p.1 :: p.2)) →
      List.Pairwise (fun a b => lineLe a.1 b.1) pending →
      (∀ w, lastValue = some w → ∀ p ∈ pending, lineLe w p.1) →
      List.Pairwise lineLt (outs.flatten ++ cur) →
      (lastValue = none → outs.flatten ++ cur = []) →
      (∀ w, lastValue = some w → ∀ x ∈ outs.flatten ++ cur, lineLe x w) →
      List.Pairwise lineLt
        (mergeLoop total K fuel fn idx limit lastValue pending cur outs).flatten := by
  intro fuel
  induction fuel with
  | zero =>
      intro fn idx limit lastValue pending cur outs _ _ _ hE _ _
      rw [mergeLoop_zero, flatten_concat]
      exact hE
  | succ fuel ih =>
      intro fn idx limit lastValue pending cur outs hpend hkeys hlast hE hnone hle
      rcases pending with _ | ⟨⟨v, rest⟩, others⟩
      · rw [mergeLoop_succ_nil]
        split_ifs with hidx hfn
        · rw [flatten_concat]
          exact hE
        · refine ih (fn + 1) idx _ lastValue [] [] (outs ++ [cur])
            hpend hkeys hlast ?_ ?_ ?_
          · rw [List.append_nil, flatten_concat]
            exact hE
          · intro hw
            rw [List.append_nil, flatten_concat]
            exact hnone hw
          · intro w hw x hx
            rw [List.append_nil, flatten_concat] at hx
            exact hle w hw x hx
        · rw [flatten_concat]
          exact hE
      · rw [mergeLoop_succ_cons]
        by_cases hidx : idx < limit
        · rw [if_pos hidx]
          have hv_chain : List.Pairwise lineLe (v :: rest) :=
            hpend (v, rest) (List.mem_cons_self _ _)
          have hv_min : ∀ p ∈ others, lineLe v p.1 :=
            (List.pairwise_cons.mp hkeys).1
          have hothers_pend : ∀ p ∈ others, List.Pairwise lineLe (p.1 :: p.2) :=
            fun p hp => hpend p (List.mem_cons_of_mem _ hp)
          have hothers_keys : List.Pairwise (fun a b => lineLe a.1 b.1) others :=
            (List.pairwise_cons.mp hkeys).2
          have hE2 : List.Pairwise lineLt (List.flatten outs ++
              (if lastValue = some v then cur else cur ++ [v])) := by
            split_ifs with hlv
            · exact hE
            · rw [← List.append_assoc]
              rw [List.pairwise_append]
              refine ⟨hE, List.pairwise_singleton _ _, ?_⟩
              intro x hx y hy
              rw [List.mem_singleton] at hy
              rw [hy]
              rcases hw : lastValue with _ | w
              · rw [hnone hw] at hx
                exact absurd hx (List.not_mem_nil x)
              · have hwv : lineLe w v :=
                  hlast w hw (v, rest) (List.mem_cons_self _ _)
                have hwv2 : lineLt w v :=
                  lineLt_of_le_of_ne hwv (fun he => hlv (he ▸ hw))
                exact lineLt_of_le_of_lt (hle w hw x hx) hwv2
          have hle2 : ∀ x ∈ List.flatten outs ++
              (if lastValue = some v then cur else cur ++ [v]), lineLe x v := by
            split_ifs with hlv
            · intro x hx
              exact hle v hlv x hx
            · intro x hx
              rw [← List.append_assoc] at hx
              rcases List.mem_append.mp hx with hx | hx
              · rcases hw : lastValue with _ | w
                · rw [hnone hw] at hx
                  exact absurd hx (List.not_mem_nil x)
                · have hwv : lineLe w v :=
                    hlast w hw (v, rest) (List.mem_cons_self _ _)
                  exact lineLe_trans (hle w hw x hx) hwv
              · rw [List.mem_singleton] at hx
                subst hx
                exact lineLe_refl x
          rcases hskip : skipEq v rest with _ | ⟨v2, rest2⟩
          · rcases others with _ | ⟨o, os⟩
            · show List.Pairwise lineLt
                ((outs ++ [if lastValue = some v then cur else cur ++ [v]]).flatten)
              rw [flatten_concat]
              exact hE2
            · exact ih fn _ limit (some v) (o :: os) _ outs
                hothers_pend hothers_keys
                (fun w hw => by
                  rcases Option.some.inj hw with rfl
                  exact hv_min)
                hE2
                (fun hcontra => Option.noConfusion hcontra)
                (fun w hw => by
                  rcases Option.some.inj hw with rfl
                  exact hle2)
          · rcases skipEq_some v rest v2 rest2 hv_chain hskip with ⟨hvlt, hchain2⟩
            exact ih fn _ limit (some v) (insertAsc (v2, rest2) others) _ outs
              (fun p hp => by
                rcases (insertAsc_mem _ _ p).mp hp with rfl | hp
                · exact hchain2
                · exact hothers_pend p hp)
              (insertAsc_keys _ _ hothers_keys)
              (fun w hw => by
                rcases Option.some.inj hw with rfl
                intro p hp
                rcases (insertAsc_mem _ _ p).mp hp with rfl | hp
                · exact lineLe_of_lt hvlt
                · exact hv_min p hp)
              hE2
              (fun hcontra => Option.noConfusion hcontra)
              (fun w hw => by
                rcases Option.some.inj hw with rfl
                exact hle2)
        · rw [if_neg hidx]
          split_ifs with hfn
          · refine ih (fn + 1) idx _ lastValue _ [] (outs ++ [cur])
              hpend hkeys hlast ?_ ?_ ?_
            · rw [List.append_nil, flatten_concat]
              exact hE
            · intro hw
              rw [List.append_nil, flatten_concat]
              exact hnone hw
            · intro w hw x hx
              rw [List.append_nil, flatten_concat] at hx
              exact hle w hw x hx
          · rw [flatten_concat]
            exact hE

/-- Claim C4: for every list of individually sorted input files, the
concatenation in output order of the batch files produced by
`merge_sorted_files` is strictly sorted ascending — in particular globally
deduplicated (no line appears twice anywhere in the output). -/
theorem C4_merge_sorted_dedup (files : List (List String))
    (h : ∀ f ∈ files, List.Pairwise lineLe f) :
    List.Pairwise lineLt (mergeSortedLines files).flatten ∧
      (mergeSortedLines files).flatten.Nodup := by
  have hmain : List.Pairwise lineLt (mergeSortedLines files).flatten := by
    rw [mergeSortedLines]
    by_cases hK : files.length = 0
    · rw [if_pos hK]
      simp
    · rw [if_neg hK]
      refine mergeLoop_pairwise _ _ _ _ _ _ _ _ _ _ ?_ ?_ ?_ ?_ ?_ ?_
      · intro p hp
        rcases foldl_insertAsc_mem _ _ p hp with h0 | hseed
        · exact absurd h0 (List.not_mem_nil p)
        · rcases List.mem_filterMap.mp hseed with ⟨f, hf, hmatch⟩
          rcases f with _ | ⟨l, t⟩
          · exact Option.noConfusion hmatch
          · rcases Option.some.inj hmatch with rfl
            exact h (l :: t) hf
      · exact foldl_insertAsc_keys _ _ List.Pairwise.nil
      · intro w hw
        exact Option.noConfusion hw
      · simp
      · intro _
        simp
      · intro w hw
        exact Option.noConfusion hw
  exact ⟨hmain, List.Pairwise.imp (fun hab => lineLt_ne hab) hmain⟩

/-- Claim C4 witness: the theorem applied to two concrete sorted files with
an overlapping line. -/
theorem C4_witness :
    List.Pairwise lineLt
      (mergeSortedLines [["1\n", "2\n"], ["2\n", "3\n"]]).flatten ∧
      (mergeSortedLines [["1\n", "2\n"], ["2\n", "3\n"]]).flatten.Nodup :=
  C4_merge_sorted_dedup [["1\n", "2\n"], ["2\n", "3\n"]] (by decide)

/-- Claim C6 (counterexample): the S2 pipeline on files `["2","2"]`, `["4"]`,
`["1","4","5","3"]` does not produce the claimed batches
`["1\n"], ["2\n","3\n"], ["4\n","5\n"]`: the per-file sort already raises
`TypeError` because `sort_file` passes `write(lines, path)` its arguments in
swapped positions, handing `open` the sorted line list as the path. -/
theorem C6_counterexample :
    s2Pipeline = Except.error PyErr.typeError ∧
    s2Pipeline ≠ Except.ok [["1\n"], ["2\n", "3\n"], ["4\n", "5\n"]] := by
  constructor
  · rfl
  · intro hcontra
    rw [show s2Pipeline = Except.error PyErr.typeError from rfl] at hcontra
    exact Except.noConfusion hcontra

/-- Claim C6 (amended): the value the pipeline is specified to compute —
the 3-way merge applied to the per-file sorted, deduplicated contents
(`sorted(set(...))` of each input file; as coded the sort step itself raises
a `TypeError` through `write`'s swapped parameters) — is the equi-line-count
partition `["1\n","2\n"], ["3\n","4\n"], ["5\n"]`, not
`["1\n"], ["2\n","3\n"], ["4\n","5\n"]`. -/
theorem C6_amended :
    mergeSortedLines
      [sortFileLines (splitLinesKeep "2\n2\n"),
       sortFileLines (splitLinesKeep "4\n"),
       sortFileLines (splitLinesKeep "1\n4\n5\n3\n")]
      = [["1\n", "2\n"], ["3\n", "4\n"], ["5\n"]] := by rfl
